import Mathlib

/-!
Shallow embedding of the PDF-categorizer worker pipeline (`src/pdf.py`).

Text is modelled as `List Char` (a Python `str`).  The regex split
`re.split(r'(?m)^\s*(#\w+)\s*$', text)` used by `parse_and_score_response`
matches exactly the lines whose whitespace-trimmed form is `#` followed by
one or more word characters; the embedding splits the text into lines and
classifies each line accordingly.  The resulting chunks coincide with the
chunks produced by `re.split` up to surrounding whitespace, which the code
always strips before use.  Python dicts are modelled as insertion-ordered
association lists with in-place overwrite, matching dict assignment
semantics.  The sentence-transformer scorer is an external ML library and
is abstracted as an optional opaque scoring function; floating-point
similarity values are abstracted as integers since no claim depends on
their magnitude.
-/

namespace PdfCat

/-- Python `\s` on the characters relevant here (ASCII whitespace). -/
def isSpaceChar (c : Char) : Bool := c = ' ' || c = '\t' || c = '\n' || c = '\r'

/-- Python `\w`: word characters (ASCII letters, digits, underscore). -/
def isWordChar (c : Char) : Bool := c.isAlphanum || c = '_'

/-- Python `str.strip()`: drop whitespace from both ends. -/
def trimChars (l : List Char) : List Char :=
  ((l.dropWhile isSpaceChar).reverse.dropWhile isSpaceChar).reverse

/-- Python `str.upper()` (ASCII). -/
def upperChars (l : List Char) : List Char := l.map Char.toUpper

/-- Python `str.replace('#', '')`: remove every `#`. -/
def removeHash (l : List Char) : List Char := l.filter (fun c => c != '#')

/-- Split a text into its lines at `'\n'` (the line structure seen by the
`(?m)` multiline regex).  Always returns at least one (possibly empty) line. -/
def splitNl : List Char → List (List Char)
  | [] => [[]]
  | c :: cs =>
    if c = '\n' then [] :: splitNl cs
    else
      match splitNl cs with
      | l :: ls => (c :: l) :: ls
      | [] => [[c]]

/-- Join lines back with `'\n'`. -/
def joinNl : List (List Char) → List Char
  | [] => []
  | [l] => l
  | l :: ls => l ++ '\n' :: joinNl ls

/-- A line matched by `^\s*(#\w+)\s*$`: after trimming it is `#` followed by
one or more word characters. -/
def isHeadingLine (l : List Char) : Bool :=
  match trimChars l with
  | '#' :: rest => !rest.isEmpty && rest.all isWordChar
  | _ => false

/-- Chunking pass of `re.split(r'(?m)^\s*(#\w+)\s*$', text)`: accumulate
non-heading lines into a chunk; each heading line becomes its own chunk
(the captured group, i.e. the trimmed line) between the surrounding text
chunks. -/
def splitChunksGo (cur : List (List Char)) : List (List Char) → List (List Char)
  | [] => [joinNl cur.reverse]
  | l :: rest =>
    if isHeadingLine l then
      joinNl cur.reverse :: trimChars l :: splitChunksGo [] rest
    else
      splitChunksGo (l :: cur) rest

/-- `re.split(r'(?m)^\s*(#\w+)\s*$', text)` on the lines of a text. -/
def splitChunks (lines : List (List Char)) : List (List Char) :=
  splitChunksGo [] lines

/-- A Python dict value in this program: a number (score) or a string. -/
inductive Value where
  | num (n : Int)
  | str (s : List Char)
deriving DecidableEq, Repr

/-- Insertion-ordered association list standing for a Python dict. -/
abbrev AList (α : Type) := List (List Char × α)

/-- Dict assignment `d[k] = v`: overwrite in place, or append a new key. -/
def dictInsert {α : Type} (k : List Char) (v : α) : AList α → AList α
  | [] => [(k, v)]
  | (k', v') :: rest => if k' = k then (k', v) :: rest else (k', v') :: dictInsert k v rest

/-- Dict lookup. -/
def dictGet {α : Type} (d : AList α) (k : List Char) : Option α :=
  match d with
  | [] => none
  | (k', v) :: rest => if k' = k then some v else dictGet rest k

/-- Dict key membership. -/
def hasKey {α : Type} (d : AList α) (k : List Char) : Bool :=
  d.any (fun p => p.1 = k)

/-- A per-file category map (`file_data` in `parse_and_score_response`). -/
abbrev Dict := AList Value

/-- The semantic-similarity scorer, abstracted: `none` models
`self.score_model = None` (sentence-transformers unavailable or failed to
load); `some f` models a loaded model whose rounded cosine similarity is
the opaque numeric `f category content`. -/
abbrev ScoreFn := List Char → List Char → Int

/-- `score = -1; if self.score_model: score = round(cos_sim..., 4)`. -/
def computeScore (sf : Option ScoreFn) (category content : List Char) : Int :=
  match sf with
  | none => -1
  | some f => f category content

/-- The key suffix `_Score` of `f'{category}_Score'`. -/
def scoreSuffix : List Char := ['_', 'S', 'c', 'o', 'r', 'e']

/-- The key suffix `_Content` of `f'{category}_Content'`. -/
def contentSuffix : List Char := ['_', 'C', 'o', 'n', 't', 'e', 'n', 't']

/-- The `for i in range(0, len(content_blocks), 2)` loop of
`parse_and_score_response`: take chunks two at a time as (heading, body);
`category = block.replace('#', '').strip().upper()`,
`content = block.strip()`; when the content is non-empty record
`{category}_Score` and `{category}_Content`. -/
def parseLoop (sf : Option ScoreFn) : List (List Char) → Dict → Dict
  | [], acc => acc
  | [_], acc => acc
  | catChunk :: conChunk :: rest, acc =>
    let category := upperChars (trimChars (removeHash catChunk))
    let content := trimChars conChunk
    let acc' :=
      if content = [] then acc
      else
        dictInsert (category ++ contentSuffix) (Value.str content)
          (dictInsert (category ++ scoreSuffix) (Value.num (computeScore sf category content)) acc)
    parseLoop sf rest acc'

/-- `parse_and_score_response` on a text given as a character list:
split on heading lines, drop the leading chunk when it is blank
(`chunks[1:] if chunks and chunks[0].strip() == '' else chunks`), then run
the pairing loop on an initially empty dict. -/
def parseResponse (sf : Option ScoreFn) (text : List Char) : Dict :=
  let chunks := splitChunks (splitNl text)
  let content_blocks :=
    match chunks with
    | [] => []
    | c0 :: rest => if trimChars c0 = [] then rest else chunks
  parseLoop sf content_blocks []

/-- `PdfProcessorWorker.parse_and_score_response` (src/pdf.py lines 140-166). -/
def parse_and_score_response (sf : Option ScoreFn) (categorized_text : String) : Dict :=
  parseResponse sf categorized_text.toList

/-! ### Categorization client (`call_deepseek_api`, src/pdf.py lines 114-138) -/

/-- Outcome of one HTTP attempt: a transport-level failure (network error or
non-2xx status, i.e. a `requests.exceptions.RequestException`), or a JSON
response whose `choices` list carries the message contents. -/
inductive ApiOutcome where
  | transportFailure
  | success (choices : List (List Char))
deriving DecidableEq

/-- Observable result of `call_deepseek_api`: the returned value (`none`
models the Python `None` failure signal), how many HTTP attempts were made,
and the argument of each `time.sleep` call in order. -/
structure ApiResult where
  result : Option (List Char)
  attempts : Nat
  sleeps : List Nat
deriving DecidableEq

/-- The `for attempt in range(3)` retry loop: on transport failure sleep
`2 ** attempt` seconds and retry; on success return the stripped first
choice, or the literal string `"AI response was empty."` when `choices` is
empty or absent; after the loop return the failure signal. -/
def apiAttempts (oracle : Nat → ApiOutcome) : Nat → Nat → List Nat → ApiResult
  | _, 0, sleeps => ⟨none, 3, sleeps.reverse⟩
  | attempt, rem + 1, sleeps =>
    match oracle attempt with
    | ApiOutcome.transportFailure => apiAttempts oracle (attempt + 1) rem (2 ^ attempt :: sleeps)
    | ApiOutcome.success [] => ⟨some "AI response was empty.".toList, attempt + 1, sleeps.reverse⟩
    | ApiOutcome.success (c :: _) => ⟨some (trimChars c), attempt + 1, sleeps.reverse⟩

/-- `PdfProcessorWorker.call_deepseek_api`, with the network abstracted as
an oracle giving the outcome of each attempt. -/
def call_deepseek_api (oracle : Nat → ApiOutcome) : ApiResult :=
  apiAttempts oracle 0 3 []

/-! ### Disclaimer removal (`extract_and_clean_text`, src/pdf.py lines 105-108)

The disclaimer patterns are fed to `re.sub(pattern, '', text,
flags=re.IGNORECASE | re.DOTALL)`.  The embedding models the pattern
language restricted to plain literal patterns (no metacharacters), for
which `re.sub` removes every case-insensitive, left-to-right,
non-overlapping occurrence in a single scan of the input. -/

/-- Case-insensitive character comparison (`re.IGNORECASE`). -/
def ciEq (a b : Char) : Bool := a.toLower = b.toLower

/-- Try to match a literal pattern at the head of the text; on success
return the text after the match. -/
def dropMatch : List Char → List Char → Option (List Char)
  | [], s => some s
  | _ :: _, [] => none
  | p :: ps, c :: cs => if ciEq p c then dropMatch ps cs else none

/-- `re.sub(p, '', s)` for a non-empty literal pattern `p`: scan left to
right, removing each non-overlapping case-insensitive occurrence.  The
fuel argument only bounds the recursion; any fuel at least `s.length` is
sufficient because each removed match consumes at least one character. -/
def removeScan (p : List Char) : Nat → List Char → List Char
  | _, [] => []
  | 0, s => s
  | fuel + 1, c :: cs =>
    match dropMatch p (c :: cs) with
    | some rest => removeScan p fuel rest
    | none => c :: removeScan p fuel cs

/-- `re.sub(p, '', s, flags=re.IGNORECASE | re.DOTALL)` for a literal
pattern.  The empty pattern never reaches `re.sub` (the code filters
patterns through `p.strip()` truthiness first). -/
def removeAll (p : List Char) (s : List Char) : List Char :=
  if p = [] then s else removeScan p s.length s

/-- Lines 105-107 of src/pdf.py: strip each configured pattern, keep the
non-empty ones, and apply them in order, each deleting its matches. -/
def disclaimerRemoval (disclaimers : List (List Char)) (text : List Char) : List Char :=
  let disclaimer_patterns := (disclaimers.map trimChars).filter (fun p => p ≠ [])
  disclaimer_patterns.foldl (fun t p => removeAll p t) text

/-- Does a case-insensitive occurrence of the literal pattern appear
anywhere in the text? -/
def occursCI (p : List Char) : List Char → Bool
  | [] => (dropMatch p []).isSome
  | c :: cs => (dropMatch p (c :: cs)).isSome || occursCI p cs

/-! ### Aggregator (`write_pivoted_csv`, src/pdf.py lines 168-186) -/

/-- The `FileName` column key. -/
def fileNameKey : List Char := ['F', 'i', 'l', 'e', 'N', 'a', 'm', 'e']

/-- How `csv.DictWriter` serializes a cell value (`str` of the value). -/
def renderValue : Value → List Char
  | Value.num n => (toString n).toList
  | Value.str s => s

/-- The keys of one file's row dict. -/
def rowKeys (fd : List Char × Dict) : List (List Char) := fd.2.map Prod.fst

/-- `all_headers = set(['FileName'])` updated with every row's keys,
modelled as a list with duplicates to be removed by `dedup`. -/
def allHeaders (processed_files : AList Dict) : List (List Char) :=
  fileNameKey :: processed_files.flatMap rowKeys

/-- `sorted_headers = ['FileName'] + sorted([h for h in all_headers if h != 'FileName'])`.
Sorting the deduplicated key list models `sorted` over the Python set. -/
def sortedHeaders (processed_files : AList Dict) : List (List Char) :=
  fileNameKey ::
    List.insertionSort (· ≤ ·) (((allHeaders processed_files).dedup).filter (fun k => k ≠ fileNameKey))

/-- One CSV data row as `csv.DictWriter.writerow` emits it: one cell per
field name, the serialized dict value when the key is present and the empty
string (the writer's default `restval`) otherwise. -/
def csvRow (headers : List (List Char)) (d : Dict) : List (List Char) :=
  headers.map (fun h =>
    match dictGet d h with
    | some v => renderValue v
    | none => [])

/-- `write_pivoted_csv`: given the `processed_files` map (file name to row
dict, in insertion order), either write nothing (`none`, when the map is
empty) or produce the header row and the data rows. -/
def write_pivoted_csv (processed_files : AList Dict) :
    Option (List (List Char) × List (List (List Char))) :=
  if processed_files = [] then none
  else
    some (sortedHeaders processed_files,
      processed_files.map (fun fd => csvRow (sortedHeaders processed_files) fd.2))

/-! ### Worker batch loop (`PdfProcessorWorker.run`, src/pdf.py lines 52-83)

The per-file stage `process_single_pdf` (PDF extraction plus API call plus
parse) is abstracted as a function from the file name to the categorized
data it yields (`none` models the `None` returned when extraction or the
API call fails; `some []` models an empty parse result — both are falsy in
`if categorized_data:`).  The GUI-thread cancellation flag is abstracted as
the value `is_cancelled` has at its n-th read: the reads happen at the top
of each loop iteration and once after the loop (`if not self.is_cancelled`).
The spec's batch states map as: `cancelled` when the final flag read is
true, `completed` otherwise; `failed` corresponds to an exception escaping
the per-file scope, which the pure model cannot produce. -/

inductive BatchStatus where
  | completed
  | cancelled
  | failed
deriving DecidableEq

structure RunResult where
  records : AList Dict
  output : Option (List (List Char) × List (List (List Char)))
  status : BatchStatus
deriving DecidableEq

/-- `processed_files[pdf_filename] = {'FileName': pdf_filename}` followed by
`processed_files[pdf_filename].update(categorized_data)`. -/
def buildRow (f : List Char) (categorized : Option Dict) : Dict :=
  match categorized with
  | none => [(fileNameKey, Value.str f)]
  | some d => d.foldl (fun acc kv => dictInsert kv.1 kv.2 acc) [(fileNameKey, Value.str f)]

/-- The `for i, pdf_filename in enumerate(pdf_files)` loop.  `i` counts flag
reads; returns the accumulated `processed_files` and the flag value at the
read after the loop ends (by break or exhaustion). -/
def runLoop (processFile : List Char → Option Dict) (cancelAt : Nat → Bool) :
    Nat → List (List Char) → AList Dict → AList Dict × Bool
  | i, [], acc => (acc, cancelAt i)
  | i, f :: rest, acc =>
    if cancelAt i then (acc, true)
    else runLoop processFile cancelAt (i + 1) rest (dictInsert f (buildRow f (processFile f)) acc)

/-- `PdfProcessorWorker.run`: list the PDF files, loop over them honoring
the cancellation flag at each file boundary, and write the pivoted CSV only
when the flag was never honored. -/
def runWorker (processFile : List Char → Option Dict) (cancelAt : Nat → Bool)
    (pdf_files : List (List Char)) : RunResult :=
  if pdf_files = [] then ⟨[], none, BatchStatus.completed⟩
  else
    let r := runLoop processFile cancelAt 0 pdf_files []
    if r.2 then ⟨r.1, none, BatchStatus.cancelled⟩
    else ⟨r.1, write_pivoted_csv r.1, BatchStatus.completed⟩

/-! ### General lemmas about the chunking and parsing passes -/

theorem splitChunksGo_append (ls : List (List Char)) (h : ∀ l ∈ ls, isHeadingLine l = false) :
    ∀ (cur rest : List (List Char)),
      splitChunksGo cur (ls ++ rest) = splitChunksGo (ls.reverse ++ cur) rest := by
  induction ls with
  | nil => intro cur rest; simp
  | cons l ls ih =>
    intro cur rest
    have hl : isHeadingLine l = false := h l (by simp)
    have hrest : ∀ x ∈ ls, isHeadingLine x = false := fun x hx => h x (by simp [hx])
    simp [splitChunksGo, hl, ih hrest, List.append_assoc]

theorem splitChunks_no_heading (ls : List (List Char)) (h : ∀ l ∈ ls, isHeadingLine l = false) :
    splitChunks ls = [joinNl ls] := by
  have := splitChunksGo_append ls h [] []
  simpa [splitChunks, splitChunksGo] using this

theorem mem_dictInsert {α : Type} (k k' : List Char) (v : α) (v' : α) (d : AList α)
    (h : (k, v) ∈ dictInsert k' v' d) : (k = k' ∧ v = v') ∨ (k, v) ∈ d := by
  induction d with
  | nil =>
    simp [dictInsert] at h
    exact Or.inl ⟨h.1, h.2⟩
  | cons p rest ih =>
    obtain ⟨kp, vp⟩ := p
    by_cases hk : kp = k'
    · simp [dictInsert, hk] at h
      rcases h with h | h
      · exact Or.inl ⟨h.1.symm ▸ rfl, h.2⟩
      · exact Or.inr (by simp [h])
    · simp [dictInsert, hk] at h
      rcases h with h | h
      · exact Or.inr (by simp [h])
      · rcases ih h with h' | h'
        · exact Or.inl h'
        · exact Or.inr (by simp [h'])

theorem parseLoop_mem (sf : Option ScoreFn) :
    ∀ (bs : List (List Char)) (acc : Dict) (k : List Char) (v : Value),
      (k, v) ∈ parseLoop sf bs acc →
      (k, v) ∈ acc ∨
        ∃ cat con, (k = cat ++ scoreSuffix ∧ v = Value.num (computeScore sf cat con)) ∨
          (k = cat ++ contentSuffix ∧ v = Value.str con)
  | [], _, _, _, h => Or.inl h
  | [_], _, _, _, h => Or.inl h
  | a :: b :: rest, acc, k, v, h => by
    rw [parseLoop] at h
    by_cases hb : trimChars b = []
    · simp only [hb, if_pos rfl] at h
      exact parseLoop_mem sf rest acc k v (by simpa using h)
    · simp only [if_neg hb] at h
      rcases parseLoop_mem sf rest _ k v h with h' | h'
      · rcases mem_dictInsert _ _ _ _ _ h' with h'' | h''
        · exact Or.inr ⟨upperChars (trimChars (removeHash a)), trimChars b, Or.inr h''⟩
        · rcases mem_dictInsert _ _ _ _ _ h'' with h3 | h3
          · exact Or.inr ⟨upperChars (trimChars (removeHash a)), trimChars b, Or.inl h3⟩
          · exact Or.inl h3
      · exact Or.inr h'

theorem reverse_head_of_suffix (s t : List Char) (hs : s ≠ []) (h : s <:+ t) :
    t.reverse.head? = s.reverse.head? := by
  obtain ⟨u, rfl⟩ := h
  rw [List.reverse_append]
  cases hsr : s.reverse with
  | nil => exact absurd (by simpa using hsr) hs
  | cons x xs => simp

theorem scoreSuffix_not_suffix_contentKey (cat : List Char) :
    ¬ (scoreSuffix <:+ cat ++ contentSuffix) := by
  intro h
  have h1 := reverse_head_of_suffix _ _ (by decide) h
  rw [List.reverse_append] at h1
  simp [contentSuffix, scoreSuffix] at h1

/-! ### Claim theorems: parser safety and scoring sentinel -/

/-- C8: a raw response with no heading-marker lines parses to zero category
entries; the parse is a total function, so the missing-headings case cannot
raise and is not fatal to the batch. -/
theorem parse_no_headings_empty (sf : Option ScoreFn) (s : String)
    (h : ∀ l ∈ splitNl s.toList, isHeadingLine l = false) :
    parse_and_score_response sf s = [] := by
  unfold parse_and_score_response parseResponse
  rw [splitChunks_no_heading _ h]
  show parseLoop sf
      (if trimChars (joinNl (splitNl s.toList)) = [] then [] else [joinNl (splitNl s.toList)]) [] = []
  by_cases hb : trimChars (joinNl (splitNl s.toList)) = []
  · rw [if_pos hb]; rfl
  · rw [if_neg hb]; rfl

/-- Witness for C8 at the concrete headingless response "hello\nworld". -/
theorem parse_no_headings_empty_witness :
    parse_and_score_response none "hello\nworld" = [] :=
  parse_no_headings_empty none "hello\nworld" (by decide)

/-- C9: with no scorer configured (`score_model is None`), every key ending
in `_Score` that the parser records holds the explicit sentinel `-1`. -/
theorem score_sentinel_when_unscored (s : String) (k : List Char) (v : Value)
    (hmem : (k, v) ∈ parse_and_score_response none s) (hsc : scoreSuffix <:+ k) :
    v = Value.num (-1) := by
  rcases parseLoop_mem none _ _ k v hmem with h | ⟨cat, con, h | h⟩
  · simp at h
  · exact h.2
  · exact absurd (h.1 ▸ hsc) (scoreSuffix_not_suffix_contentKey cat)

/-- Witness for C9 at the concrete response "#A\nx". -/
theorem score_sentinel_when_unscored_witness :
    (('A' :: scoreSuffix, Value.num (-1)) ∈ parse_and_score_response none "#A\nx") ∧
      Value.num (-1) = Value.num (-1) :=
  ⟨by decide, score_sentinel_when_unscored "#A\nx" ('A' :: scoreSuffix) (Value.num (-1))
    (by decide) ⟨['A'], rfl⟩⟩

/-- C2 (code bug): on a response whose text before the first heading is
non-blank, the parser does not discard that text; it keeps it as the first
chunk, which shifts the heading/body pairing.  On
"Intro text\n#GOLD\nPrice rose." the code records the preamble as category
`INTRO TEXT` with the heading marker itself as its content, and records no
`GOLD` entry at all. -/
theorem preamble_not_discarded_eval :
    parse_and_score_response none "Intro text\n#GOLD\nPrice rose." =
      [("INTRO TEXT".toList ++ scoreSuffix, Value.num (-1)),
       ("INTRO TEXT".toList ++ contentSuffix, Value.str "#GOLD".toList)] ∧
      hasKey (parse_and_score_response none "Intro text\n#GOLD\nPrice rose.")
        ("GOLD".toList ++ contentSuffix) = false := by
  constructor <;> decide

/-- C5 (code bug): a batch with one enumerated file that yields no category
entries still writes a CSV, and that CSV is degenerate: only the `FileName`
column with one row.  The empty-result guard in `write_pivoted_csv` never
fires because `run` seeds `processed_files[f] = {'FileName': f}` before
processing each file. -/
theorem degenerate_csv_written_eval :
    runWorker (fun _ => none) (fun _ => false) ["a.pdf".toList] =
      ⟨[("a.pdf".toList, [(fileNameKey, Value.str "a.pdf".toList)])],
       some ([fileNameKey], [["a.pdf".toList]]), BatchStatus.completed⟩ := by
  decide

/-- C6: when every attempt fails at transport level, `call_deepseek_api`
makes exactly 3 attempts, sleeps `2 ** attempt` seconds after each failed
attempt (so the waits between consecutive attempts are `2^0` and `2^1`),
and then returns the failure signal `None` instead of raising. -/
theorem api_retries_three_then_fails (oracle : Nat → ApiOutcome)
    (h : ∀ i, i < 3 → oracle i = ApiOutcome.transportFailure) :
    call_deepseek_api oracle = ⟨none, 3, [2 ^ 0, 2 ^ 1, 2 ^ 2]⟩ := by
  unfold call_deepseek_api
  rw [apiAttempts, h 0 (by omega)]
  rw [apiAttempts, h 1 (by omega)]
  rw [apiAttempts, h 2 (by omega)]
  rfl

/-- Witness for C6 with the always-failing transport oracle. -/
theorem api_retries_three_then_fails_witness :
    call_deepseek_api (fun _ => ApiOutcome.transportFailure) =
      ⟨none, 3, [2 ^ 0, 2 ^ 1, 2 ^ 2]⟩ :=
  api_retries_three_then_fails (fun _ => ApiOutcome.transportFailure) (fun _ _ => rfl)

/-! ### Claim theorems: disclaimer removal (C7) -/

theorem removeScan_of_not_occurs (p : List Char) (t : List Char) (h : occursCI p t = false) :
    ∀ fuel, removeScan p fuel t = t := by
  induction t with
  | nil => intro fuel; cases fuel <;> rfl
  | cons c cs ih =>
    intro fuel
    simp [occursCI, Bool.or_eq_false_iff] at h
    cases fuel with
    | zero => rfl
    | succ fuel =>
      have hd : dropMatch p (c :: cs) = none := Option.not_isSome_iff_eq_none.mp (by simp [h.1])
      rw [removeScan, hd, ih (by simp [h.2])]

theorem removeAll_of_not_occurs (p t : List Char) (h : occursCI p t = false) :
    removeAll p t = t := by
  unfold removeAll
  by_cases hp : p = []
  · rw [if_pos hp]
  · rw [if_neg hp, removeScan_of_not_occurs p t h]

theorem foldl_removeAll_of_not_occurs (ps : List (List Char)) (t : List Char)
    (h : ∀ p ∈ ps, occursCI p t = false) :
    ps.foldl (fun t p => removeAll p t) t = t := by
  induction ps with
  | nil => rfl
  | cons p ps ih =>
    have hp := h p (by simp)
    simp only [List.foldl_cons, removeAll_of_not_occurs p t hp]
    exact ih (fun q hq => h q (by simp [hq]))

/-- C7 counterexample: the full substitution pass is not idempotent.  With
the single (perfectly valid, literal) pattern "ab", one pass over "aabb"
leaves "ab" — whose removal the second pass then performs — so applying the
pass twice differs from applying it once. -/
theorem disclaimer_removal_not_idempotent :
    disclaimerRemoval ["ab".toList] (disclaimerRemoval ["ab".toList] "aabb".toList) ≠
      disclaimerRemoval ["ab".toList] "aabb".toList := by
  decide

/-- C7 amended: the pass is idempotent on texts it has fully cleaned.  If
after one pass no configured pattern still occurs (case-insensitively) in
the result, a second pass returns the result unchanged.  In general a
removal can create a fresh match, which the next pass then removes. -/
theorem disclaimer_removal_idempotent_on_clean (disclaimers : List (List Char)) (text : List Char)
    (h : ∀ p ∈ (disclaimers.map trimChars).filter (fun p => p ≠ []),
      occursCI p (disclaimerRemoval disclaimers text) = false) :
    disclaimerRemoval disclaimers (disclaimerRemoval disclaimers text) =
      disclaimerRemoval disclaimers text :=
  foldl_removeAll_of_not_occurs _ _ h

/-- Witness for the amended C7: the pattern "zq" never occurs in
"hello", so cleaning twice equals cleaning once. -/
theorem disclaimer_removal_idempotent_on_clean_witness :
    disclaimerRemoval ["zq".toList] (disclaimerRemoval ["zq".toList] "hello".toList) =
      disclaimerRemoval ["zq".toList] "hello".toList :=
  disclaimer_removal_idempotent_on_clean ["zq".toList] "hello".toList (by decide)

/-! ### Claim theorems: cooperative cancellation (C4) -/

theorem hasKey_append {α : Type} (a b : AList α) (k : List Char) :
    hasKey (a ++ b) k = (hasKey a k || hasKey b k) := by
  simp [hasKey, List.any_append]

theorem dictInsert_of_fresh {α : Type} (k : List Char) (v : α) (d : AList α)
    (h : hasKey d k = false) : dictInsert k v d = d ++ [(k, v)] := by
  induction d with
  | nil => rfl
  | cons p rest ih =>
    obtain ⟨kp, vp⟩ := p
    unfold hasKey at h
    rw [List.any_cons, Bool.or_eq_false_iff] at h
    obtain ⟨h1, h2⟩ := h
    have hne : kp ≠ k := by simpa using h1
    rw [dictInsert, if_neg hne, ih h2]
    rfl

theorem runLoop_cancel_take (processFile : List Char → Option Dict) (k : Nat) :
    ∀ (files : List (List Char)) (i : Nat) (acc : AList Dict),
      i ≤ k → k ≤ i + files.length → files.Nodup →
      (∀ f ∈ files, hasKey acc f = false) →
      runLoop processFile (fun j => decide (k ≤ j)) i files acc =
        (acc ++ (files.take (k - i)).map (fun f => (f, buildRow f (processFile f))), true) := by
  intro files
  induction files with
  | nil =>
    intro i acc hik hki _ _
    have : i = k := by simpa using Nat.le_antisymm hik (by simpa using hki)
    simp [runLoop, this]
  | cons f rest ih =>
    intro i acc hik hki hnd hfresh
    by_cases hk : k ≤ i
    · have : i = k := Nat.le_antisymm hik hk
      simp [runLoop, this, Nat.sub_self]
    · have hlt : i < k := Nat.lt_of_le_of_ne (Nat.le_of_not_lt (by omega)) (by omega)
      have hckf : decide (k ≤ i) = false := by simp; omega
      rw [runLoop, hckf]
      simp only [Bool.false_eq_true, if_false]
      have hfr : hasKey acc f = false := hfresh f (by simp)
      rw [dictInsert_of_fresh f _ acc hfr]
      have hnd' : rest.Nodup := (List.nodup_cons.mp hnd).2
      have hne : f ∉ rest := (List.nodup_cons.mp hnd).1
      have hfresh' : ∀ g ∈ rest, hasKey (acc ++ [(f, buildRow f (processFile f))]) g = false := by
        intro g hg
        rw [hasKey_append]
        have h1 : hasKey acc g = false := hfresh g (by simp [hg])
        have h2 : hasKey [(f, buildRow f (processFile f))] g = false := by
          simp [hasKey]
          intro he
          exact absurd (he ▸ hg) hne
        simp [h1, h2]
      rw [ih (i + 1) _ (by omega) (by simp at hki ⊢; omega) hnd' hfresh']
      have hsub : k - i = (k - (i + 1)) + 1 := by omega
      rw [hsub, List.take_succ_cons]
      simp

/-- C4 counterexample: with three files and cancellation requested after the
first file completes, the run does stop at the file boundary with exactly
one processed record and a cancelled (not failed) state, but it writes no
output at all (`run` skips `write_pivoted_csv` whenever `is_cancelled` is
set), so the output does not contain the processed file. -/
theorem cancellation_discards_output_eval :
    (runWorker (fun _ => some []) (fun i => decide (1 ≤ i))
        ["a.pdf".toList, "b.pdf".toList, "c.pdf".toList]).output = none ∧
      (runWorker (fun _ => some []) (fun i => decide (1 ≤ i))
        ["a.pdf".toList, "b.pdf".toList, "c.pdf".toList]).records.length = 1 ∧
      (runWorker (fun _ => some []) (fun i => decide (1 ≤ i))
        ["a.pdf".toList, "b.pdf".toList, "c.pdf".toList]).status = BatchStatus.cancelled := by
  refine ⟨?_, ?_, ?_⟩ <;> decide

/-- C4 amended: if cancellation is requested after file k of n completes
(1 <= k < n), the run stops at the next file boundary; exactly the k files
processed before cancellation are in the worker's result map, the run ends
in the cancelled (not failed) state, and no output file is written. -/
theorem cancellation_stops_at_boundary (processFile : List Char → Option Dict)
    (files : List (List Char)) (k : Nat)
    (hk1 : 1 ≤ k) (hkn : k < files.length) (hnd : files.Nodup) :
    runWorker processFile (fun j => decide (k ≤ j)) files =
      ⟨(files.take k).map (fun f => (f, buildRow f (processFile f))), none,
        BatchStatus.cancelled⟩ := by
  have hne : files ≠ [] := by
    intro h
    rw [h] at hkn
    simp at hkn
  unfold runWorker
  rw [if_neg hne]
  rw [runLoop_cancel_take processFile k files 0 [] (by omega) (by omega) hnd (by simp [hasKey])]
  simp

/-- Witness for the amended C4: three files, cancellation after the first;
exactly one record, no output, cancelled state. -/
theorem cancellation_stops_at_boundary_witness :
    runWorker (fun _ => some []) (fun j => decide (1 ≤ j))
        ["a.pdf".toList, "b.pdf".toList, "c.pdf".toList] =
      ⟨[("a.pdf".toList, [(fileNameKey, Value.str "a.pdf".toList)])], none,
        BatchStatus.cancelled⟩ :=
  cancellation_stops_at_boundary (fun _ => some []) ["a.pdf".toList, "b.pdf".toList, "c.pdf".toList]
    1 (by decide) (by decide) (by decide)

/-! ### Claim theorems: score/content keys come in pairs (C10) -/

theorem hasKey_cons {α : Type} (p : List Char × α) (d : AList α) (k : List Char) :
    hasKey (p :: d) k = (decide (p.1 = k) || hasKey d k) := by
  simp [hasKey]

theorem hasKey_dictInsert {α : Type} (k k' : List Char) (v : α) (d : AList α) :
    hasKey (dictInsert k' v d) k = (hasKey d k || decide (k = k')) := by
  induction d with
  | nil =>
    rw [dictInsert, hasKey_cons]
    have h : decide (k' = k) = decide (k = k') := decide_eq_decide.mpr eq_comm
    rw [h]
    show (decide (k = k') || false) = (false || decide (k = k'))
    cases decide (k = k') <;> rfl
  | cons p rest ih =>
    obtain ⟨kp, vp⟩ := p
    rw [dictInsert]
    by_cases hp : kp = k'
    · rw [if_pos hp, hasKey_cons, hasKey_cons]
      subst hp
      have h : decide (k = kp) = decide (kp = k) := decide_eq_decide.mpr eq_comm
      rw [h]
      cases hd : decide (kp = k) <;> cases hb : hasKey rest k <;> rfl
    · rw [if_neg hp, hasKey_cons, hasKey_cons, ih, Bool.or_assoc]

theorem length_dictInsert {α : Type} (k : List Char) (v : α) (d : AList α) :
    (dictInsert k v d).length = if hasKey d k then d.length else d.length + 1 := by
  induction d with
  | nil => simp [dictInsert, hasKey]
  | cons p rest ih =>
    obtain ⟨kp, vp⟩ := p
    by_cases hp : kp = k
    · simp [dictInsert, hasKey, hp]
    · unfold hasKey at ih ⊢
      simp only [dictInsert, if_neg hp, List.any_cons, List.length_cons, ih]
      have : (decide (kp = k)) = false := by simpa using hp
      rw [this]
      by_cases hr : rest.any (fun p => decide (p.1 = k)) <;> simp [hr]

theorem reverse_head_scoreKey (a : List Char) :
    (a ++ scoreSuffix).reverse.head? = some 'e' := by
  rw [List.reverse_append]; rfl

theorem reverse_head_contentKey (a : List Char) :
    (a ++ contentSuffix).reverse.head? = some 't' := by
  rw [List.reverse_append]; rfl

theorem scoreKey_ne_contentKey (a b : List Char) : a ++ scoreSuffix ≠ b ++ contentSuffix := by
  intro h
  have := (reverse_head_scoreKey a).symm.trans (h ▸ reverse_head_contentKey b)
  simp at this

theorem scoreKey_inj (a b : List Char) (h : a ++ scoreSuffix = b ++ scoreSuffix) : a = b :=
  List.append_cancel_right h

theorem contentKey_inj (a b : List Char) (h : a ++ contentSuffix = b ++ contentSuffix) : a = b :=
  List.append_cancel_right h

/-- The two keys of one category are always present together, and the key
count stays even. -/
def pairKeysOk (d : Dict) : Prop :=
  ∀ L, hasKey d (L ++ scoreSuffix) = hasKey d (L ++ contentSuffix)

theorem pairInsert_ok (cat : List Char) (sv cv : Value) (acc : Dict)
    (hp : pairKeysOk acc) (he : acc.length % 2 = 0) :
    pairKeysOk (dictInsert (cat ++ contentSuffix) cv (dictInsert (cat ++ scoreSuffix) sv acc)) ∧
      (dictInsert (cat ++ contentSuffix) cv (dictInsert (cat ++ scoreSuffix) sv acc)).length % 2
        = 0 := by
  constructor
  · intro L
    rw [hasKey_dictInsert, hasKey_dictInsert, hasKey_dictInsert, hasKey_dictInsert]
    have h1 : decide (L ++ scoreSuffix = cat ++ contentSuffix) = false :=
      decide_eq_false (scoreKey_ne_contentKey L cat)
    have h2 : decide (L ++ contentSuffix = cat ++ scoreSuffix) = false :=
      decide_eq_false (fun h => scoreKey_ne_contentKey cat L h.symm)
    have h3 : decide (L ++ scoreSuffix = cat ++ scoreSuffix) = decide (L = cat) :=
      decide_eq_decide.mpr ⟨scoreKey_inj L cat, fun h => h ▸ rfl⟩
    have h4 : decide (L ++ contentSuffix = cat ++ contentSuffix) = decide (L = cat) :=
      decide_eq_decide.mpr ⟨contentKey_inj L cat, fun h => h ▸ rfl⟩
    rw [h1, h2, h3, h4, hp L]
    cases hasKey acc (L ++ contentSuffix) <;> cases decide (L = cat) <;> rfl
  · rw [length_dictInsert, length_dictInsert, hasKey_dictInsert]
    have h2 : decide (cat ++ contentSuffix = cat ++ scoreSuffix) = false :=
      decide_eq_false (fun h => scoreKey_ne_contentKey cat cat h.symm)
    rw [h2, hp cat]
    cases h : hasKey acc (cat ++ contentSuffix) <;> simp [h] <;> omega

theorem parseLoop_paired (sf : Option ScoreFn) :
    ∀ (bs : List (List Char)) (acc : Dict), pairKeysOk acc → acc.length % 2 = 0 →
      pairKeysOk (parseLoop sf bs acc) ∧ (parseLoop sf bs acc).length % 2 = 0
  | [], acc, hp, he => ⟨hp, he⟩
  | [_], acc, hp, he => ⟨hp, he⟩
  | a :: b :: rest, acc, hp, he => by
    rw [parseLoop]
    by_cases hb : trimChars b = []
    · simp only [hb, if_pos rfl]
      exact parseLoop_paired sf rest acc hp he
    · simp only [if_neg hb]
      have := pairInsert_ok (upperChars (trimChars (removeHash a)))
        (Value.num (computeScore sf (upperChars (trimChars (removeHash a))) (trimChars b)))
        (Value.str (trimChars b)) acc hp he
      exact parseLoop_paired sf rest _ this.1 this.2

/-- C10: for every raw response and any scorer configuration, the parser's
output contains `LABEL_Score` exactly when it contains `LABEL_Content`, and
its key count is even. -/
theorem parse_keys_paired (sf : Option ScoreFn) (s : String) (L : List Char) :
    hasKey (parse_and_score_response sf s) (L ++ scoreSuffix) =
        hasKey (parse_and_score_response sf s) (L ++ contentSuffix) ∧
      (parse_and_score_response sf s).length % 2 = 0 := by
  have h := parseLoop_paired sf
    (match splitChunks (splitNl s.toList) with
      | [] => []
      | c0 :: rest => if trimChars c0 = [] then rest else splitChunks (splitNl s.toList))
    [] (fun _ => rfl) rfl
  exact ⟨h.1 L, h.2⟩

/-! ### Claim theorems: aggregator column set (C3) -/

theorem sortedHeaders_perm_eq (pf pf' : AList Dict) (h : List.Perm pf pf') :
    sortedHeaders pf = sortedHeaders pf' := by
  unfold sortedHeaders
  congr 1
  have hall : List.Perm (allHeaders pf) (allHeaders pf') :=
    List.Perm.cons fileNameKey (h.flatMap_right rowKeys)
  have hfil : List.Perm ((allHeaders pf).dedup.filter (fun k => k ≠ fileNameKey))
      ((allHeaders pf').dedup.filter (fun k => k ≠ fileNameKey)) :=
    hall.dedup.filter _
  have hp2 : List.Perm
      (List.insertionSort (· ≤ ·) ((allHeaders pf).dedup.filter (fun k => k ≠ fileNameKey)))
      (List.insertionSort (· ≤ ·) ((allHeaders pf').dedup.filter (fun k => k ≠ fileNameKey))) :=
    (List.perm_insertionSort _ _).trans (hfil.trans (List.perm_insertionSort _ _).symm)
  have hs1 : List.Sorted (· ≤ ·)
      (List.insertionSort (· ≤ ·) ((allHeaders pf).dedup.filter (fun k => k ≠ fileNameKey))) :=
    List.sorted_insertionSort _ _
  have hs2 : List.Sorted (· ≤ ·)
      (List.insertionSort (· ≤ ·) ((allHeaders pf').dedup.filter (fun k => k ≠ fileNameKey))) :=
    List.sorted_insertionSort _ _
  exact List.eq_of_perm_of_sorted hp2 hs1 hs2

theorem mem_sortedHeaders (pf : AList Dict) (k : List Char) :
    k ∈ sortedHeaders pf ↔ (k = fileNameKey ∨ ∃ fd ∈ pf, k ∈ rowKeys fd) := by
  unfold sortedHeaders allHeaders
  rw [List.mem_cons, (List.perm_insertionSort (α := List Char) (· ≤ ·) _).mem_iff,
    List.mem_filter, List.mem_dedup, List.mem_cons, List.mem_flatMap]
  by_cases hk : k = fileNameKey
  · simp [hk]
  · simp [hk]

theorem csvRow_length (headers : List (List Char)) (d : Dict) :
    (csvRow headers d).length = headers.length := by
  simp [csvRow]

theorem dictGet_eq_none {α : Type} (d : AList α) (k : List Char) (h : hasKey d k = false) :
    dictGet d k = none := by
  induction d with
  | nil => rfl
  | cons p rest ih =>
    obtain ⟨kp, vp⟩ := p
    rw [hasKey_cons, Bool.or_eq_false_iff] at h
    have hne : kp ≠ k := by simpa using h.1
    rw [dictGet, if_neg hne]
    exact ih h.2

theorem csvRow_cell_of_absent (headers : List (List Char)) (d : Dict) :
    ∀ (i : Nat) (hi : i < headers.length) (hlen : i < (csvRow headers d).length),
      hasKey d (headers.get ⟨i, hi⟩) = false → (csvRow headers d).get ⟨i, hlen⟩ = [] := by
  induction headers with
  | nil => intro i hi _ _; exact absurd hi (by simp)
  | cons hd tl ih =>
    intro i hi hlen h
    cases i with
    | zero =>
      show (match dictGet d hd with | some v => renderValue v | none => []) = []
      rw [dictGet_eq_none d hd h]
    | succ n =>
      exact ih n (by simpa using hi) (by simpa [csvRow] using hlen) h

/-- C3: the aggregator's header row is `FileName` followed by the union of
every file's `_Score`/`_Content` keys sorted lexicographically, and it is
the same for any permutation of the input files; every data row has one
cell per header, and a file lacking a header's category gets the empty
cell rather than no cell. -/
theorem aggregator_columns (pf pf' : AList Dict) (hne : pf ≠ []) (hperm : List.Perm pf pf') :
    ∃ rows rows',
      write_pivoted_csv pf = some (sortedHeaders pf, rows) ∧
      write_pivoted_csv pf' = some (sortedHeaders pf, rows') ∧
      (sortedHeaders pf).head? = some fileNameKey ∧
      List.Sorted (· ≤ ·) (sortedHeaders pf).tail ∧
      (∀ k, k ∈ sortedHeaders pf ↔ (k = fileNameKey ∨ ∃ fd ∈ pf, k ∈ rowKeys fd)) ∧
      rows = pf.map (fun fd => csvRow (sortedHeaders pf) fd.2) ∧
      (∀ row ∈ rows, row.length = (sortedHeaders pf).length) ∧
      (∀ fd ∈ pf, ∀ (i : Nat) (hi : i < (sortedHeaders pf).length)
        (hlen : i < (csvRow (sortedHeaders pf) fd.2).length),
        hasKey fd.2 ((sortedHeaders pf).get ⟨i, hi⟩) = false →
        (csvRow (sortedHeaders pf) fd.2).get ⟨i, hlen⟩ = []) := by
  have hne' : pf' ≠ [] := by
    intro h
    rw [h] at hperm
    have hl := hperm.length_eq
    simp at hl
    exact hne hl
  refine ⟨pf.map (fun fd => csvRow (sortedHeaders pf) fd.2),
    pf'.map (fun fd => csvRow (sortedHeaders pf') fd.2), ?_, ?_, rfl, ?_, ?_, rfl, ?_, ?_⟩
  · rw [write_pivoted_csv, if_neg hne]
  · rw [write_pivoted_csv, if_neg hne', sortedHeaders_perm_eq pf pf' hperm]
  · exact List.sorted_insertionSort _ _
  · exact mem_sortedHeaders pf
  · intro row hrow
    rw [List.mem_map] at hrow
    obtain ⟨fd, _, rfl⟩ := hrow
    exact csvRow_length _ _
  · intro fd _ i hi hlen h
    exact csvRow_cell_of_absent _ _ i hi hlen h

/-- Witness for C3: two files in both orders, with overlapping and disjoint
categories; the header row is identical and every row is full-width. -/
theorem aggregator_columns_witness :
    ∃ rows rows',
      write_pivoted_csv
          [("b.pdf".toList, [(fileNameKey, Value.str "b.pdf".toList)]),
           ("a.pdf".toList,
            [(fileNameKey, Value.str "a.pdf".toList),
             ('G' :: scoreSuffix, Value.num (-1)),
             ('G' :: contentSuffix, Value.str "x".toList)])] =
        some (sortedHeaders
          [("b.pdf".toList, [(fileNameKey, Value.str "b.pdf".toList)]),
           ("a.pdf".toList,
            [(fileNameKey, Value.str "a.pdf".toList),
             ('G' :: scoreSuffix, Value.num (-1)),
             ('G' :: contentSuffix, Value.str "x".toList)])], rows) ∧
      write_pivoted_csv
          [("a.pdf".toList,
            [(fileNameKey, Value.str "a.pdf".toList),
             ('G' :: scoreSuffix, Value.num (-1)),
             ('G' :: contentSuffix, Value.str "x".toList)]),
           ("b.pdf".toList, [(fileNameKey, Value.str "b.pdf".toList)])] =
        some (sortedHeaders
          [("b.pdf".toList, [(fileNameKey, Value.str "b.pdf".toList)]),
           ("a.pdf".toList,
            [(fileNameKey, Value.str "a.pdf".toList),
             ('G' :: scoreSuffix, Value.num (-1)),
             ('G' :: contentSuffix, Value.str "x".toList)])], rows') ∧
      (sortedHeaders
          [("b.pdf".toList, [(fileNameKey, Value.str "b.pdf".toList)]),
           ("a.pdf".toList,
            [(fileNameKey, Value.str "a.pdf".toList),
             ('G' :: scoreSuffix, Value.num (-1)),
             ('G' :: contentSuffix, Value.str "x".toList)])]).head? = some fileNameKey := by
  obtain ⟨rows, rows', h1, h2, h3, _⟩ :=
    aggregator_columns
      [("b.pdf".toList, [(fileNameKey, Value.str "b.pdf".toList)]),
       ("a.pdf".toList,
        [(fileNameKey, Value.str "a.pdf".toList),
         ('G' :: scoreSuffix, Value.num (-1)),
         ('G' :: contentSuffix, Value.str "x".toList)])]
      [("a.pdf".toList,
        [(fileNameKey, Value.str "a.pdf".toList),
         ('G' :: scoreSuffix, Value.num (-1)),
         ('G' :: contentSuffix, Value.str "x".toList)]),
       ("b.pdf".toList, [(fileNameKey, Value.str "b.pdf".toList)])]
      (by decide) (by decide)
  exact ⟨rows, rows', h1, h2, h3⟩

/-! ### Character class and trimming lemmas for well-formed headings (C1) -/

theorem space_not_word (c : Char) (h : isSpaceChar c = true) : isWordChar c = false := by
  simp [isSpaceChar] at h
  rcases h with ((h | h) | h) | h <;> subst h <;> decide

theorem word_not_space (c : Char) (h : isWordChar c = true) : isSpaceChar c = false := by
  cases hs : isSpaceChar c
  · rfl
  · rw [space_not_word c hs] at h
    exact absurd h (by simp)

theorem word_ne_hash (c : Char) (h : isWordChar c = true) : (c != '#') = true := by
  by_cases hc : c = '#'
  · subst hc; exact absurd h (by decide)
  · simpa using hc

theorem dropWhile_all_neg (p : Char → Bool) (l : List Char) (h : ∀ c ∈ l, p c = false) :
    l.dropWhile p = l := by
  cases l with
  | nil => rfl
  | cons a as => simp [List.dropWhile_cons, h a (by simp)]

theorem trim_of_all_nonspace (l : List Char) (h : ∀ c ∈ l, isSpaceChar c = false) :
    trimChars l = l := by
  unfold trimChars
  rw [dropWhile_all_neg _ l h]
  rw [dropWhile_all_neg _ l.reverse (fun c hc => h c (List.mem_reverse.mp hc))]
  exact List.reverse_reverse l

theorem trim_eq_nil_iff (l : List Char) :
    trimChars l = [] ↔ ∀ c ∈ l, isSpaceChar c = true := by
  unfold trimChars
  rw [List.reverse_eq_nil_iff, List.dropWhile_eq_nil_iff]
  constructor
  · intro h c hc
    have hsplit := List.takeWhile_append_dropWhile (p := isSpaceChar) (l := l)
    rw [← hsplit] at hc
    rcases List.mem_append.mp hc with h1 | h1
    · exact List.mem_takeWhile_imp h1
    · exact h c (List.mem_reverse.mpr h1)
  · intro h c hc
    exact h c ((List.dropWhile_sublist _).subset (List.mem_reverse.mp hc))

theorem blank_not_heading (l : List Char) (h : trimChars l = []) : isHeadingLine l = false := by
  unfold isHeadingLine
  rw [h]

theorem heading_line_iff_shape (lab : List Char) (hne : lab ≠ []) (hw : lab.all isWordChar = true) :
    isHeadingLine ('#' :: lab) = true := by
  have htrim : trimChars ('#' :: lab) = '#' :: lab := by
    apply trim_of_all_nonspace
    intro c hc
    rcases List.mem_cons.mp hc with h | h
    · subst h; decide
    · exact word_not_space c (by
        rw [List.all_eq_true] at hw
        exact hw c h)
  unfold isHeadingLine
  rw [htrim]
  cases lab with
  | nil => exact absurd rfl hne
  | cons a as => simpa using hw

theorem removeHash_wordLabel (lab : List Char) (hw : lab.all isWordChar = true) :
    removeHash ('#' :: lab) = lab := by
  unfold removeHash
  rw [List.filter_cons]
  have h1 : (('#' : Char) != '#') = false := by decide
  rw [h1]
  simp only [Bool.false_eq_true, if_false]
  apply List.filter_eq_self.mpr
  intro c hc
  rw [List.all_eq_true] at hw
  exact word_ne_hash c (hw c hc)

theorem trim_wordLabel (lab : List Char) (hw : lab.all isWordChar = true) :
    trimChars lab = lab := by
  apply trim_of_all_nonspace
  intro c hc
  rw [List.all_eq_true] at hw
  exact word_not_space c (hw c hc)

theorem mem_joinNl (ls : List (List Char)) (l : List Char) (c : Char)
    (hl : l ∈ ls) (hc : c ∈ l) : c ∈ joinNl ls := by
  induction ls with
  | nil => exact absurd hl (by simp)
  | cons a as ih =>
    cases as with
    | nil =>
      rcases List.mem_cons.mp hl with h | h
      · subst h; exact hc
      · exact absurd h (by simp)
    | cons b bs =>
      show c ∈ a ++ '\n' :: joinNl (b :: bs)
      rcases List.mem_cons.mp hl with h | h
      · subst h; exact List.mem_append.mpr (Or.inl hc)
      · exact List.mem_append.mpr (Or.inr (List.mem_cons.mpr (Or.inr (ih h))))

/-! ### Chunk structure of a well-formed response (C1) -/

theorem splitChunksGo_blocks (blocks : List (List Char × List (List Char)))
    (hcond : ∀ b ∈ blocks, b.1 ≠ [] ∧ b.1.all isWordChar = true ∧
      ∀ l ∈ b.2, isHeadingLine l = false) :
    ∀ cur, splitChunksGo cur (blocks.flatMap (fun b => ('#' :: b.1) :: b.2)) =
      joinNl cur.reverse :: blocks.flatMap (fun b => [('#' :: b.1), joinNl b.2]) := by
  induction blocks with
  | nil => intro cur; rfl
  | cons b bs ih =>
    intro cur
    obtain ⟨hne, hw, hbody⟩ := hcond b (by simp)
    have hcond' : ∀ x ∈ bs, x.1 ≠ [] ∧ x.1.all isWordChar = true ∧
        ∀ l ∈ x.2, isHeadingLine l = false := fun x hx => hcond x (by simp [hx])
    rw [List.flatMap_cons, List.cons_append]
    rw [splitChunksGo, if_pos (heading_line_iff_shape b.1 hne hw)]
    rw [splitChunksGo_append b.2 hbody [] (bs.flatMap (fun b => ('#' :: b.1) :: b.2))]
    rw [ih hcond' (b.2.reverse ++ [])]
    rw [trim_of_all_nonspace ('#' :: b.1) (by
      intro c hc
      rcases List.mem_cons.mp hc with h | h
      · subst h; decide
      · exact word_not_space c ((List.all_eq_true.mp hw) c h))]
    simp

/-- The category entries a well-formed block list should produce: for each
block, its `_Score` and `_Content` keys under the uppercased label. -/
def blockEntries (sf : Option ScoreFn) (blocks : List (List Char × List (List Char))) : Dict :=
  blocks.flatMap (fun b =>
    [(upperChars b.1 ++ scoreSuffix,
      Value.num (computeScore sf (upperChars b.1) (trimChars (joinNl b.2)))),
     (upperChars b.1 ++ contentSuffix, Value.str (trimChars (joinNl b.2)))])

theorem blockEntries_length (sf : Option ScoreFn) :
    ∀ blocks, (blockEntries sf blocks).length = 2 * blocks.length := by
  intro blocks
  induction blocks with
  | nil => rfl
  | cons b bs ih =>
    show (blockEntries sf (b :: bs)).length = 2 * (bs.length + 1)
    rw [blockEntries, List.flatMap_cons]
    rw [blockEntries] at ih
    simp only [List.length_append, List.length_cons, List.length_nil, ih]
    omega

theorem parseLoop_blocks (sf : Option ScoreFn) :
    ∀ (blocks : List (List Char × List (List Char))) (acc : Dict),
      (∀ b ∈ blocks, b.1 ≠ [] ∧ b.1.all isWordChar = true ∧ trimChars (joinNl b.2) ≠ []) →
      (∀ b ∈ blocks, hasKey acc (upperChars b.1 ++ scoreSuffix) = false ∧
        hasKey acc (upperChars b.1 ++ contentSuffix) = false) →
      (blocks.map (fun b => upperChars b.1)).Nodup →
      parseLoop sf (blocks.flatMap (fun b => [('#' :: b.1), joinNl b.2])) acc =
        acc ++ blockEntries sf blocks := by
  intro blocks
  induction blocks with
  | nil => intro acc _ _ _; simp [blockEntries, parseLoop]
  | cons b bs ih =>
    intro acc hcond hfresh hnd
    obtain ⟨hne, hw, hcon⟩ := hcond b (by simp)
    rw [List.flatMap_cons, List.cons_append, List.singleton_append]
    rw [parseLoop]
    have hcat : upperChars (trimChars (removeHash ('#' :: b.1))) = upperChars b.1 := by
      rw [removeHash_wordLabel b.1 hw, trim_wordLabel b.1 hw]
    rw [hcat]
    rw [if_neg hcon]
    have hfb := hfresh b (by simp)
    rw [dictInsert_of_fresh _ _ acc hfb.1]
    have hck : hasKey (acc ++ [(upperChars b.1 ++ scoreSuffix,
        Value.num (computeScore sf (upperChars b.1) (trimChars (joinNl b.2))))])
        (upperChars b.1 ++ contentSuffix) = false := by
      rw [hasKey_append, hfb.2, hasKey_cons]
      have : decide ((upperChars b.1 ++ scoreSuffix) = (upperChars b.1 ++ contentSuffix)) = false :=
        decide_eq_false (scoreKey_ne_contentKey _ _)
      simp [hasKey, this]
      decide
    rw [dictInsert_of_fresh _ _ _ hck]
    have hndtail : (bs.map (fun b => upperChars b.1)).Nodup := (List.nodup_cons.mp hnd).2
    have hhead : upperChars b.1 ∉ bs.map (fun b => upperChars b.1) := (List.nodup_cons.mp hnd).1
    have hfresh' : ∀ x ∈ bs, hasKey ((acc ++ [(upperChars b.1 ++ scoreSuffix,
        Value.num (computeScore sf (upperChars b.1) (trimChars (joinNl b.2))))]) ++
          [(upperChars b.1 ++ contentSuffix, Value.str (trimChars (joinNl b.2)))])
        (upperChars x.1 ++ scoreSuffix) = false ∧
        hasKey ((acc ++ [(upperChars b.1 ++ scoreSuffix,
        Value.num (computeScore sf (upperChars b.1) (trimChars (joinNl b.2))))]) ++
          [(upperChars b.1 ++ contentSuffix, Value.str (trimChars (joinNl b.2)))])
        (upperChars x.1 ++ contentSuffix) = false := by
      intro x hx
      have hxfresh := hfresh x (by simp [hx])
      have hxb : upperChars x.1 ≠ upperChars b.1 := by
        intro he
        exact hhead (he ▸ List.mem_map.mpr ⟨x, hx, rfl⟩)
      constructor
      · rw [hasKey_append, hasKey_append, hxfresh.1]
        have e1 : decide ((upperChars b.1 ++ scoreSuffix) = (upperChars x.1 ++ scoreSuffix))
            = false := decide_eq_false (fun h => hxb (scoreKey_inj _ _ h).symm)
        have e2 : decide ((upperChars b.1 ++ contentSuffix) = (upperChars x.1 ++ scoreSuffix))
            = false := decide_eq_false (fun h => scoreKey_ne_contentKey _ _ h.symm)
        simp [hasKey, e1, e2]
        exact fun h => hxb h.symm
      · rw [hasKey_append, hasKey_append, hxfresh.2]
        have e1 : decide ((upperChars b.1 ++ scoreSuffix) = (upperChars x.1 ++ contentSuffix))
            = false := decide_eq_false (scoreKey_ne_contentKey _ _)
        have e2 : decide ((upperChars b.1 ++ contentSuffix) = (upperChars x.1 ++ contentSuffix))
            = false := decide_eq_false (fun h => hxb (contentKey_inj _ _ h).symm)
        simp [hasKey, e1, e2]
        exact fun h => hxb h.symm
    rw [ih _ (fun x hx => hcond x (by simp [hx])) hfresh' hndtail]
    simp only [blockEntries, List.flatMap_cons]
    simp [List.append_assoc]

/-- C1 counterexample, two parts.  First: "#A\nx\n#A\ny" contains two
well-formed heading lines, each followed by a body with non-whitespace
content, yet the parser produces one category entry (two keys), because the
duplicate uppercased label collapses in the dict.  Second:
"Intro\n#GOLD\nbody" contains one well-formed heading followed by a
non-blank body, yet no entry keyed by GOLD exists (the non-blank preamble
shifts the pairing). -/
theorem parse_heading_count_counterexample :
    (parse_and_score_response none "#A\nx\n#A\ny").length = 2 ∧
      hasKey (parse_and_score_response none "Intro\n#GOLD\nbody")
        ("GOLD".toList ++ contentSuffix) = false := by
  constructor <;> decide

/-- C1 amended: for a response whose lines are blank preamble lines followed
by well-formed `#LABEL` heading lines each with a non-blank body containing
no heading lines, and whose uppercased labels are pairwise distinct, the
parser produces exactly one `_Score`/`_Content` entry pair per heading
(`2 * N` keys for `N` headings), keyed by the uppercased trimmed label, with
the trimmed body as content. -/
theorem parse_wellformed_response (sf : Option ScoreFn) (text : List Char)
    (pre : List (List Char)) (blocks : List (List Char × List (List Char)))
    (hsplit : splitNl text = pre ++ blocks.flatMap (fun b => ('#' :: b.1) :: b.2))
    (hpre : trimChars (joinNl pre) = [])
    (hlab : ∀ b ∈ blocks, b.1 ≠ [] ∧ b.1.all isWordChar = true)
    (hbody : ∀ b ∈ blocks, (∀ l ∈ b.2, isHeadingLine l = false) ∧ trimChars (joinNl b.2) ≠ [])
    (hnd : (blocks.map (fun b => upperChars b.1)).Nodup) :
    parseResponse sf text = blockEntries sf blocks ∧
      (parseResponse sf text).length = 2 * blocks.length := by
  have hpreBlank : ∀ l ∈ pre, isHeadingLine l = false := by
    intro l hl
    apply blank_not_heading
    rw [trim_eq_nil_iff]
    intro c hc
    exact (trim_eq_nil_iff (joinNl pre)).mp hpre c (mem_joinNl pre l c hl hc)
  have hcond : ∀ b ∈ blocks, b.1 ≠ [] ∧ b.1.all isWordChar = true ∧
      ∀ l ∈ b.2, isHeadingLine l = false :=
    fun b hb => ⟨(hlab b hb).1, (hlab b hb).2, (hbody b hb).1⟩
  have hchunks : splitChunks (splitNl text) =
      joinNl pre :: blocks.flatMap (fun b => [('#' :: b.1), joinNl b.2]) := by
    rw [hsplit]
    unfold splitChunks
    rw [splitChunksGo_append pre hpreBlank [] _]
    rw [splitChunksGo_blocks blocks hcond (pre.reverse ++ [])]
    simp
  have hmain : parseResponse sf text = blockEntries sf blocks := by
    unfold parseResponse
    rw [hchunks]
    show parseLoop sf (if trimChars (joinNl pre) = [] then
        blocks.flatMap (fun b => [('#' :: b.1), joinNl b.2])
      else joinNl pre :: blocks.flatMap (fun b => [('#' :: b.1), joinNl b.2])) [] = _
    rw [if_pos hpre]
    rw [parseLoop_blocks sf blocks []
      (fun b hb => ⟨(hlab b hb).1, (hlab b hb).2, (hbody b hb).2⟩)
      (fun b _ => ⟨rfl, rfl⟩) hnd]
    simp
  exact ⟨hmain, by rw [hmain, blockEntries_length]⟩

/-- Witness for the amended C1 at the spec's own example response
"#GOLD\nPrice rose.\n#OIL\nSupply cut.": two headings, four keys. -/
theorem parse_wellformed_response_witness :
    parseResponse none "#GOLD\nPrice rose.\n#OIL\nSupply cut.".toList =
        blockEntries none
          [("GOLD".toList, ["Price rose.".toList]), ("OIL".toList, ["Supply cut.".toList])] ∧
      (parseResponse none "#GOLD\nPrice rose.\n#OIL\nSupply cut.".toList).length = 2 * 2 :=
  parse_wellformed_response none "#GOLD\nPrice rose.\n#OIL\nSupply cut.".toList []
    [("GOLD".toList, ["Price rose.".toList]), ("OIL".toList, ["Supply cut.".toList])]
    (by decide) (by decide) (by decide) (by decide) (by decide)

end PdfCat
